import Mathlib

/-!
# Verification of the oxen-libquic event-loop / BT-request-stream core

Shallow embedding of the core data structures and operations of the
repository (Loop / Ticker / Network / BTRequestStream), translated from the
C++ sources, together with theorems settling the specification claims.
-/

namespace OxenQuic

/-! ## Ticker (`Ticker::start` / `Ticker::stop`, loop.cpp)

The Ticker's observable state is its `_is_running` flag.  `start` returns
`false` when already running, otherwise arms the underlying libevent timer
(`event_add`); on arming success it sets the flag and returns `true`, on
arming failure it leaves the flag untouched and returns `false`.  `stop` is
symmetric via `event_del`.  The success of the underlying `event_add` /
`event_del` call is passed in as the `armOk` / `disarmOk` argument. -/

/-- `Ticker::start`: argument `armOk` is the success of the underlying
`event_add` call; state is the `_is_running` flag.  Returns
(return value, new flag). -/
def tickerStart (armOk : Bool) (running : Bool) : Bool × Bool :=
  if running then (false, running)
  else if !armOk then (false, running)
  else (true, true)

/-- `Ticker::stop`: argument `disarmOk` is the success of the underlying
`event_del` call. Returns (return value, new flag). -/
def tickerStop (disarmOk : Bool) (running : Bool) : Bool × Bool :=
  if !running then (false, running)
  else if !disarmOk then (false, running)
  else (true, false)

/-- A start/stop call on a Ticker. -/
inductive TickerOp where
  | start : TickerOp
  | stop : TickerOp
deriving DecidableEq, Repr

/-- One Ticker call, under the claim's assumption that the underlying
timer arm/disarm operations succeed (`armOk = disarmOk = true`). -/
def tickerStep (running : Bool) : TickerOp → Bool × Bool
  | .start => tickerStart true running
  | .stop => tickerStop true running

/-- Run a sequence of start/stop calls from a given `_is_running` state,
collecting the boolean return values and the final state. -/
def tickerRun (running : Bool) : List TickerOp → List Bool × Bool
  | [] => ([], running)
  | op :: ops =>
    let (r, s') := tickerStep running op
    let (rs, sF) := tickerRun s' ops
    (r :: rs, sF)

/-- The last successful transition of a call sequence (a call returning
`true`), if any. -/
def tickerLastSuccess (running : Bool) : List TickerOp → Option TickerOp
  | [] => none
  | op :: ops =>
    let (r, s') := tickerStep running op
    match tickerLastSuccess s' ops with
    | some o => some o
    | none => if r then some op else none

/-! ## Weak-bound Ticker (`Loop::call_every(interval, weak_owner, f)`, loop.hpp)

The callback installed by the weak-pointer overload of `call_every` is

    if (auto ptr = owner.lock()) func();
    else hndlr.reset();

i.e. each timer fire first upgrades the weak owner; on success the user
callback runs, on failure the Ticker handle held by the closure is dropped,
destroying the Ticker and removing the event — so the timer never fires
again.  We model the Ticker as a `cancelled` flag, and a timer fire as a
step over the owner-aliveness observed at that fire. -/

/-- Result of one scheduled timer slot for a weak-bound ticker: whether the
libevent callback actually fired (the event still exists), and whether the
user function `f` was run. -/
structure WeakFireOut where
  fired : Bool
  ran : Bool
deriving DecidableEq, Repr

/-- One timer slot of a weak-bound ticker.  `cancelled` is whether the
Ticker was already destroyed (event removed); `alive` is whether
`owner.lock()` succeeds at this fire. Returns the new cancelled flag and
the observable outcome. -/
def weakFire (cancelled : Bool) (alive : Bool) : Bool × WeakFireOut :=
  if cancelled then (true, ⟨false, false⟩)
  else if alive then (false, ⟨true, true⟩)
  else (true, ⟨true, false⟩)

/-- Run a weak-bound ticker over a sequence of timer slots with the given
owner-aliveness at each slot. -/
def weakRun (cancelled : Bool) : List Bool → List WeakFireOut
  | [] => []
  | alive :: rest =>
    let (c', out) := weakFire cancelled alive
    out :: weakRun c' rest

/-! ## `Loop::call_later` (loop.hpp)

On the loop thread, `call_later(delay, f)` schedules a one-shot event for
the full delay.  Off-thread it snapshots `target_time = get_time() + delay`
at submission and enqueues a job; when the loop processes the job it takes
`now = get_time()` and runs `f` immediately if `now >= target_time`,
otherwise schedules a one-shot for `target_time - now`.  Instants and
durations are integers (microseconds). -/

/-- What `call_later` ends up doing once the Loop handles it. -/
inductive CallLaterAction where
  | runNow : CallLaterAction
  | oneshot (delay : Int) : CallLaterAction
deriving DecidableEq, Repr

/-- `Loop::call_later`: `inLoop` is `in_event_loop()` at submission,
`submitTime` the clock at submission, `processTime` the clock when the Loop
thread processes the submitted job (unused when submitting on-thread). -/
def callLater (inLoop : Bool) (submitTime delay processTime : Int) : CallLaterAction :=
  if inLoop then .oneshot delay
  else
    let targetTime := submitTime + delay
    if processTime ≥ targetTime then .runNow
    else .oneshot (targetTime - processTime)

/-! ## `Loop::stop_tickers` (loop.cpp) and the ticker registry

The Loop keeps `tickers : unordered_map<caller_id_t, list<weak_ptr<Ticker>>>`.
`stop_tickers(id)` looks up the entry for `id` and, for every weak pointer
that still locks, clears the callback (`f = nullptr`) and calls `stop()`.
We model the registry as a total map from caller ids to lists of ticker
records (an absent key behaves as the empty list, as with `unordered_map`
lookup misses). -/

/-- The observable state of a registered Ticker: whether the weak pointer
still locks, the `_is_running` flag, and whether a callback `f` is set. -/
structure TickRec where
  alive : Bool
  running : Bool
  hasCb : Bool
deriving DecidableEq, Repr

/-- caller_id_t is a 16-bit unsigned integer. -/
abbrev CallerId := Nat

/-- The Loop's own reserved caller id (`Loop::loop_id`). -/
def loopId : CallerId := 0

/-- The body of the `stop_tickers` loop on one registered ticker: if the
weak pointer locks, clear its callback and stop it; expired entries are
skipped. -/
def stopTickRec (t : TickRec) : TickRec :=
  if t.alive then { t with running := false, hasCb := false } else t

/-- `Loop::stop_tickers(id)`: update the registry. -/
def stopTickers (id : CallerId) (reg : CallerId → List TickRec) :
    CallerId → List TickRec :=
  fun k => if k = id then (reg id).map stopTickRec else reg k

/-! ## `Network::next_net_id` (network.cpp)

`static caller_id_t Network::next_net_id = 0;` and every Network
construction (default, adopting a loop, copies, and `create_linked_network`)
initialises `net_id{++next_net_id}`.  `caller_id_t` is `uint16_t`, so the
pre-increment wraps modulo 2^16. -/

/-- One `++next_net_id` on the shared `uint16_t` counter. -/
def nextNetIdStep (c : Nat) : Nat := (c + 1) % 65536

/-- The counter value after `k` Network constructions (starting from the
static initial value 0); this is also the caller id received by the `k`-th
constructed Network (`net_id{++next_net_id}` assigns the incremented
value). -/
def netIdAfter : Nat → Nat
  | 0 => 0
  | k + 1 => nextNetIdStep (netIdAfter k)

/-! ## BTRequestStream in-flight request handling (btstream.cpp)

`sent_reqs` is the deque of in-flight sent requests, kept sorted by strictly
increasing `req_id`.  An entry's fields used here are its `req_id` and its
expiry deadline; invoking its completion callback is recorded as the
`req_id` of the entry whose callback ran. -/

/-- An in-flight `sent_request` entry.  Modelled from the spec: the entry
structure itself is declared in `btstream.hpp`, which is not among the
sources; per the spec each in-flight entry carries an id, a deadline and a
completion callback. -/
structure SentReq where
  reqId : Int
  expiry : Int
deriving DecidableEq, Repr

/-- `std::lower_bound(sent_reqs.begin(), sent_reqs.end(), rid,
[](sr, rid){ return sr->req_id < rid; })`: on a list partitioned by the
comparator (in particular on a list sorted by increasing `req_id`) it
returns the first position whose element does not satisfy
`sr.req_id < rid`; `reqs.length` plays the role of `end()`. -/
def lowerBoundIdx (reqs : List SentReq) (rid : Int) : Nat :=
  reqs.findIdx (fun sr => decide (¬ sr.reqId < rid))

/-- An incoming, fully assembled message as seen by `handle_input`: its
type string ("C", "R" or "E") and its request id. -/
structure MsgIn where
  reqType : String
  reqId : Int
deriving DecidableEq, Repr

/-- `BTRequestStream::handle_input`, restricted to its effect on the
in-flight list: for a Response/Error message it takes the `lower_bound` of
the message's `req_id`; if that iterator is not `end()` it invokes that
entry's completion callback with the message and erases the entry
(note: the code performs no equality check between the found entry's id and
the message's id).  Otherwise the message falls through to the endpoint
handler lookup (an R/E message has an empty endpoint name), which leaves
the in-flight list untouched.  Returns the `req_id` of the entry whose
callback was invoked (if any) and the new in-flight list. -/
def handleInput (reqs : List SentReq) (msg : MsgIn) : Option Int × List SentReq :=
  if msg.reqType = "R" ∨ msg.reqType = "E" then
    let i := lowerBoundIdx reqs msg.reqId
    if h : i < reqs.length then
      (some (reqs.get ⟨i, h⟩).reqId, reqs.eraseIdx i)
    else
      (none, reqs)
  else
    (none, reqs)

/-- `sent_request::is_expired(now)`.  Modelled from the spec: `btstream.hpp`
is not among the sources; per the spec an entry is expired when its deadline
has passed at the sweep's current time. -/
def isExpired (now : Int) (sr : SentReq) : Bool := decide (sr.expiry < now)

/-- `BTRequestStream::check_timeouts`: the do-while loop reads
`sent_reqs.front()` BEFORE any emptiness check; on an empty deque that
front access is out of bounds, modelled as `none`.  On a nonempty deque it
pops-and-fails leading expired entries (collecting the timed-out
callbacks' req_ids in order) and stops at the first non-expired entry; the
emptiness test happens only at the bottom of the loop. -/
def checkTimeouts (now : Int) : List SentReq → Option (List SentReq × List Int)
  | [] => none
  | f :: rest =>
    if isExpired now f then
      match rest with
      | [] => some ([], [f.reqId])
      | r :: rs =>
        (checkTimeouts now (r :: rs)).map (fun p => (p.1, f.reqId :: p.2))
    else
      some (f :: rest, [])

/-! ## `message` view rebasing (btstream.cpp)

A `message` owns a backing byte buffer (`bstring data`) and three
`std::string_view`s (`req_type`, `ep`, `req_body`) pointing into it.
`message::operator=` (used by both copy and move constructors and
assignments) records each view's (offset, length) against the source buffer
via `get_sv_pos` (raw pointer subtraction) and re-creates the views against
the destination buffer via `fixup_view` (pointer addition).  We model
addresses as integers; a default-constructed view (never-assigned `ep` of a
Response/Error message) is the null view `⟨0, 0⟩`. -/

/-- A `std::string_view`: a raw data pointer (address) and a length. -/
structure SView where
  ptr : Int
  len : Nat
deriving DecidableEq, Repr

/-- The view-relevant state of a `message`: the address and content of the
backing buffer and the three parsed views. -/
structure MsgViews where
  addr : Int
  data : List Nat
  reqType : SView
  ep : SView
  reqBody : SView
deriving DecidableEq, Repr

/-- `get_sv_pos`: `off = view.data() - source.data(); len = view.size()`. -/
def getSvPos (srcAddr : Int) (view : SView) : Int × Nat :=
  (view.ptr - srcAddr, view.len)

/-- `fixup_view`: `new_view = {new_source.data() + off, len}`. -/
def fixupView (newAddr : Int) (offLen : Int × Nat) : SView :=
  ⟨newAddr + offLen.1, offLen.2⟩

/-- `message::operator=`: record the three views' positions against the
source buffer, take over the buffer content (now living at `newAddr`; a
move that reuses the source heap allocation has `newAddr = m.addr`, a copy
— or a small-string move — places the content at a fresh address), then
fix up the three views against the new buffer. -/
def msgAssign (m : MsgViews) (newAddr : Int) : MsgViews :=
  let typePos := getSvPos m.addr m.reqType
  let epPos := getSvPos m.addr m.ep
  let bodyPos := getSvPos m.addr m.reqBody
  { addr := newAddr, data := m.data,
    reqType := fixupView newAddr typePos,
    ep := fixupView newAddr epPos,
    reqBody := fixupView newAddr bodyPos }

/-- View `v` refers into the backing buffer of `m`. -/
def viewInBuffer (m : MsgViews) (v : SView) : Prop :=
  m.addr ≤ v.ptr ∧ v.ptr + v.len ≤ m.addr + m.data.length

instance (m : MsgViews) (v : SView) : Decidable (viewInBuffer m v) := by
  unfold viewInBuffer
  infer_instance

/-- The byte content a view denotes inside `m`'s buffer. -/
def viewContent (m : MsgViews) (v : SView) : List Nat :=
  (m.data.drop (v.ptr - m.addr).toNat).take v.len

/-- A parsed Response message at source buffer address 100: `req_type` and
`req_body` point into the buffer, `ep` was never assigned (null view). -/
def msgRE : MsgViews :=
  { addr := 100, data := List.replicate 10 0,
    reqType := ⟨102, 1⟩, ep := ⟨0, 0⟩, reqBody := ⟨104, 2⟩ }

/-! ## BTRequestStream incremental framing parser (btstream.cpp)

`process_incoming` is a two-state incremental consumer over the stream
bytes: while no expected length is known (`current_len == 0`) it
accumulates length-prefix bytes (`size_buf`) until `parse_length` finds the
`:`; then it accumulates exactly `current_len` bytes into `buf` and hands
the completed buffer to `handle_input`.  We embed the byte stream as
`List Char`. -/

/-- MAX_REQ_LEN / MAX_REQ_LEN_ENCODED.  Modelled from the spec: the
constants are declared in `btstream.hpp`, which is not among the sources
(§6: compile-time configuration constants), so the embedding is parametric
over their values. -/
structure BTConfig where
  maxReqLen : Nat
  maxReqLenEncoded : Nat
deriving DecidableEq, Repr

def isDigitChar (c : Char) : Bool := decide ('0' ≤ c ∧ c ≤ '9')

def digitVal (c : Char) : Nat := c.toNat - 48

def digitsToNat (l : List Char) : Nat :=
  l.foldl (fun acc c => 10 * acc + digitVal c) 0

/-- `req.find_first_of(':')` as an index (`none` = `npos`). -/
def findColonIdx : List Char → Option Nat
  | [] => none
  | c :: rest => if c = ':' then some 0 else (findColonIdx rest).map (fun i => i + 1)

/-- `size_t` overflow bound of `std::from_chars` into `size_t`. -/
def sizeTBound : Nat := 2 ^ 64

/-- `std::from_chars(first, last, v)` for an unsigned `size_t` target on the
given character range: parse the maximal digit run at the front; `none`
models `ec != std::errc()` (no digits at all, or value out of `size_t`
range). -/
def fromCharsNat (s : List Char) : Option Nat :=
  let ds := s.takeWhile isDigitChar
  if ds = [] then none
  else if sizeTBound ≤ digitsToNat ds then none
  else some (digitsToNat ds)

/-- Result of `BTRequestStream::parse_length`: `incomplete` is the return
value 0 (no readable length yet), `err` a thrown `std::invalid_argument`
(its message), `ok len consumed` sets `current_len = len` and returns
`consumed` characters (including the colon) parsed from the front. -/
inductive LenResult where
  | incomplete : LenResult
  | err (msg : String) : LenResult
  | ok (len consumed : Nat) : LenResult
deriving DecidableEq, Repr

/-- `BTRequestStream::parse_length`. -/
def parseLength (cfg : BTConfig) (req : List Char) : LenResult :=
  match findColonIdx req with
  | none =>
    if cfg.maxReqLenEncoded ≤ req.length then
      .err "Invalid incoming request; invalid encoding or request too large"
    else .incomplete
  | some pos =>
    match fromCharsNat (req.take pos) with
    | none => .err "Invalid incoming request encoding!"
    | some v =>
      if v = 0 then .err "Invalid empty bt request!"
      else if cfg.maxReqLen < v then .err "Request exceeds maximum size!"
      else .ok v (pos + 1)

/-- The parser state of a `BTRequestStream`: the expected message length
(`current_len`, 0 while still reading a length prefix), the length-prefix
accumulator `size_buf`, and the message-body accumulator `buf`. -/
structure BTState where
  currentLen : Nat
  sizeBuf : List Char
  buf : List Char
deriving DecidableEq, Repr

/-- A freshly opened stream's parser state. -/
def initState : BTState := ⟨0, [], []⟩

/-- Result of a `process_incoming` call: the final parser state, or the
message of the `std::invalid_argument` thrown out of `parse_length`. -/
inductive PIRes where
  | ok (s : BTState) : PIRes
  | fail (e : String) : PIRes
deriving DecidableEq, Repr

theorem parseLength_ok_one_le {cfg : BTConfig} {req : List Char} {v c : Nat}
    (h : parseLength cfg req = .ok v c) : 1 ≤ c := by
  unfold parseLength at h
  split at h
  · split at h <;> simp_all
  · split at h
    · simp_all
    · split at h
      · simp_all
      · split at h
        · simp_all
        · simp only [LenResult.ok.injEq] at h
          omega

/-- Termination weight of a parser state for the `process_incoming` loop. -/
def piWeight (s : BTState) : Nat :=
  if s.currentLen = 0 then (if s.sizeBuf = [] then 0 else 2)
  else (if s.sizeBuf = [] then 2 else 4)

mutual

/-- The `while (not req.empty())` loop of
`BTRequestStream::process_incoming`, entered at the top of an iteration.
Returns the messages handed to `handle_input` (their raw byte buffers, in
order) and the final state or thrown error. -/
def piGo (cfg : BTConfig) (s : BTState) (req : List Char) :
    List (List Char) × PIRes :=
  if hreq : req = [] then ([], .ok s)
  else if hcl : s.currentLen = 0 then
    if hsb : s.sizeBuf = [] then
      match hpl : parseLength cfg req with
      | .incomplete => ([], .ok ⟨0, req, s.buf⟩)
      | .err e => ([], .fail e)
      | .ok v consumed => piBody cfg v [] s.buf (req.drop consumed)
    else
      match hpl : parseLength cfg (s.sizeBuf ++ req.take cfg.maxReqLenEncoded) with
      | .incomplete =>
        ([], .ok ⟨0, s.sizeBuf ++ req.take cfg.maxReqLenEncoded, s.buf⟩)
      | .err e => ([], .fail e)
      | .ok v consumed => piBody cfg v [] s.buf (req.drop (consumed - s.sizeBuf.length))
  else
    piBody cfg s.currentLen s.sizeBuf s.buf req
termination_by 4 * req.length + piWeight s + 1
decreasing_by
  · have hc := parseLength_ok_one_le hpl
    have hr : 1 ≤ req.length := List.length_pos.mpr hreq
    simp only [piWeight, hcl, hsb, List.length_drop, if_true, ite_true]
    omega
  · simp only [piWeight, hcl, hsb, List.length_drop, if_true, ite_true, if_false, ite_false]
    omega
  · simp only [piWeight, hcl]
    by_cases h : s.sizeBuf = [] <;> simp [h] <;> omega

/-- The body-accumulation part of a `process_incoming` loop iteration, with
`current_len = len` just established (or carried over): if enough bytes are
on hand, complete the message, deliver it, reset `current_len` and continue
the loop (`continue`); otherwise stash the remainder in `buf` and return. -/
def piBody (cfg : BTConfig) (len : Nat) (sizeBuf buf req : List Char) :
    List (List Char) × PIRes :=
  if h1 : len ≤ req.length + buf.length then
    if h2 : buf.length < len then
      let res := piGo cfg ⟨0, sizeBuf, []⟩ (req.drop (len - buf.length))
      ((buf ++ req.take (len - buf.length)) :: res.1, res.2)
    else
      let res := piGo cfg ⟨0, sizeBuf, []⟩ req
      (buf :: res.1, res.2)
  else ([], .ok ⟨len, sizeBuf, buf ++ req⟩)
termination_by 4 * req.length + (if sizeBuf = [] then 2 else 4)
decreasing_by
  · simp only [piWeight, List.length_drop]
    by_cases h : sizeBuf = [] <;> simp [h] <;> omega
  · simp only [piWeight]
    by_cases h : sizeBuf = [] <;> simp [h] <;> omega

end

/-- `BTRequestStream::process_incoming`. -/
def processIncoming (cfg : BTConfig) (s : BTState) (req : List Char) :
    List (List Char) × PIRes :=
  piGo cfg s req

/-- Feed a sequence of receive chunks through `process_incoming`,
accumulating delivered messages; a thrown error closes the stream, so
later chunks are not processed (`BTRequestStream::receive` returns
immediately once `is_closing()`). -/
def feedChunks (cfg : BTConfig) : BTState → List (List Char) → List (List Char) × PIRes
  | s, [] => ([], .ok s)
  | s, ch :: rest =>
    match piGo cfg s ch with
    | (msgs, .ok s') =>
      let res := feedChunks cfg s' rest
      (msgs ++ res.1, res.2)
    | (msgs, .fail e) => (msgs, .fail e)

/-- Application error code used to close the stream on a parse error.
Modelled from the spec: `BPARSER_ERROR_EXCEPTION` is declared in
`btstream.hpp`, which is not among the sources; the spec only requires an
application-defined protocol-error code. -/
def BPARSER_ERROR_EXCEPTION : Nat := 10000

/-- The stream-level state seen by `BTRequestStream::receive`: the parser
state plus the close code if the stream was closed. -/
structure StreamState where
  ps : BTState
  closedCode : Option Nat
deriving DecidableEq, Repr

/-- `BTRequestStream::receive`: drop data once closing; otherwise run
`process_incoming`, and close with `BPARSER_ERROR_EXCEPTION` if it threw.
Returns the new stream state and the delivered messages. -/
def btReceive (cfg : BTConfig) (st : StreamState) (data : List Char) :
    StreamState × List (List Char) :=
  if st.closedCode.isSome then (st, [])
  else
    match piGo cfg st.ps data with
    | (msgs, .ok s') => (⟨s', none⟩, msgs)
    | (msgs, .fail _) => (⟨st.ps, some BPARSER_ERROR_EXCEPTION⟩, msgs)

/-! ## Well-formed framed wire input -/

/-- A complete framed message on the wire: a nonempty digit-run length
prefix whose value is the body length, positive, within `MAX_REQ_LEN`, and
whose encoding including the colon fits in `MAX_REQ_LEN_ENCODED` bytes;
then the colon; then exactly that many body bytes. -/
structure WFMsg (cfg : BTConfig) where
  lenStr : List Char
  body : List Char
  len_digits : ∀ c ∈ lenStr, isDigitChar c = true
  len_ne : lenStr ≠ []
  len_short : lenStr.length + 1 ≤ cfg.maxReqLenEncoded
  val_pos : 0 < digitsToNat lenStr
  val_le : digitsToNat lenStr ≤ cfg.maxReqLen
  body_len : body.length = digitsToNat lenStr

/-- The expected message length encoded by a well-formed message. -/
def msgVal {cfg : BTConfig} (m : WFMsg cfg) : Nat := digitsToNat m.lenStr

/-- The wire bytes of one framed message. -/
def wireOf {cfg : BTConfig} (m : WFMsg cfg) : List Char :=
  m.lenStr ++ ':' :: m.body

/-- The wire bytes of a sequence of framed messages. -/
def wire (cfg : BTConfig) (ms : List (WFMsg cfg)) : List Char :=
  (ms.map wireOf).flatten

/-- The canonical parser state after consuming the first `p` bytes of the
wire encoding of `ms` (at a message boundary: the initial state; inside a
length prefix: that many prefix bytes in `size_buf`; past the colon: the
expected length set and the body bytes so far in `buf`). -/
def canonAt (cfg : BTConfig) : List (WFMsg cfg) → Nat → BTState
  | [], _ => initState
  | m :: ms, p =>
    if (wireOf m).length ≤ p then canonAt cfg ms (p - (wireOf m).length)
    else if p ≤ m.lenStr.length then ⟨0, m.lenStr.take p, []⟩
    else ⟨msgVal m, [], m.body.take (p - m.lenStr.length - 1)⟩

/-- The messages fully contained in (hence delivered by) the first `p`
bytes of the wire encoding of `ms`. -/
def deliveredUpTo (cfg : BTConfig) : List (WFMsg cfg) → Nat → List (List Char)
  | [], _ => []
  | m :: ms, p =>
    if (wireOf m).length ≤ p then
      m.body :: deliveredUpTo cfg ms (p - (wireOf m).length)
    else []

/-- The concrete configuration used to instantiate the parser theorems:
MAX_REQ_LEN = 100, MAX_REQ_LEN_ENCODED = 6. -/
def btCfgEx : BTConfig := ⟨100, 6⟩

/-- A concrete well-formed framed message `"2:hi"`. -/
def wfMsgEx : WFMsg btCfgEx :=
  ⟨['2'], ['h', 'i'], by decide, by decide, by decide, by decide, by decide, by decide⟩

/-- The statement of chunk-invariance at chunk size `c`: from the canonical
state at any position `p` of any well-formed wire, processing the next `c`
wire bytes succeeds, lands in the canonical state at `p + c`, and delivers
exactly the messages that became complete in between. -/
def MainProp (cfg : BTConfig) (c : Nat) : Prop :=
  ∀ (ms : List (WFMsg cfg)) (p : Nat), p + c ≤ (wire cfg ms).length →
    ∃ out,
      piGo cfg (canonAt cfg ms p) (((wire cfg ms).drop p).take c) =
        (out, .ok (canonAt cfg ms (p + c))) ∧
      deliveredUpTo cfg ms p ++ out = deliveredUpTo cfg ms (p + c)

/-- The claim's rendering of `Loop::call_later` (refinement target, written
from the specification's words: a target instant equal to the submission-time
clock plus delay is snapshotted at submission; on processing, the Loop
computes the residual against the current clock, runs immediately if the
residual is ≤ 0, otherwise schedules a one-shot for exactly the residual;
on the Loop thread the one-shot gets the full delay). -/
def callLaterSpec (inLoop : Bool) (submitTime delay processTime : Int) : CallLaterAction :=
  if inLoop then .oneshot delay
  else
    let residual := (submitTime + delay) - processTime
    if residual ≤ 0 then .runNow else .oneshot residual

/-- A concrete Loop ticker registry used to instantiate the frame theorem
for `stop_tickers`: caller id 3 holds one live and one expired ticker,
the Loop's reserved id 0 holds one live ticker. -/
def regEx : CallerId → List TickRec := fun k =>
  if k = 3 then [⟨true, true, true⟩, ⟨false, true, true⟩]
  else if k = 0 then [⟨true, true, true⟩]
  else []

/-! # Theorems -/

/-! ## Parser helper lemmas -/

theorem findColonIdx_digits {l : List Char} (h : ∀ c ∈ l, isDigitChar c = true) :
    findColonIdx l = none := by
  induction l with
  | nil => rfl
  | cons c rest ih =>
    have hc : c ≠ ':' := by
      intro he
      have := h c (by simp)
      rw [he] at this
      simp [isDigitChar] at this
    simp [findColonIdx, hc, ih (fun x hx => h x (by simp [hx]))]

theorem findColonIdx_append_colon {ds : List Char} (h : ∀ c ∈ ds, isDigitChar c = true)
    (rest : List Char) : findColonIdx (ds ++ ':' :: rest) = some ds.length := by
  induction ds with
  | nil => simp [findColonIdx]
  | cons c ds ih =>
    have hc : c ≠ ':' := by
      intro he
      have := h c (by simp)
      rw [he] at this
      simp [isDigitChar] at this
    simp [findColonIdx, hc, ih (fun x hx => h x (by simp [hx]))]

theorem fromCharsNat_digits {ds : List Char} (h : ∀ c ∈ ds, isDigitChar c = true)
    (hne : ds ≠ []) (hlt : digitsToNat ds < sizeTBound) :
    fromCharsNat ds = some (digitsToNat ds) := by
  unfold fromCharsNat
  rw [List.takeWhile_eq_self_iff.mpr h]
  rw [if_neg hne, if_neg (by omega)]

theorem parseLength_digits_incomplete (cfg : BTConfig) {l : List Char}
    (h : ∀ c ∈ l, isDigitChar c = true) (hlen : l.length < cfg.maxReqLenEncoded) :
    parseLength cfg l = .incomplete := by
  unfold parseLength
  rw [findColonIdx_digits h]
  rw [if_neg (by omega)]

theorem parseLength_digits_ok (cfg : BTConfig) {ds : List Char} (rest : List Char)
    (h : ∀ c ∈ ds, isDigitChar c = true) (hne : ds ≠ [])
    (hpos : 0 < digitsToNat ds) (hle : digitsToNat ds ≤ cfg.maxReqLen)
    (h64 : cfg.maxReqLen < sizeTBound) :
    parseLength cfg (ds ++ ':' :: rest) = .ok (digitsToNat ds) (ds.length + 1) := by
  unfold parseLength
  simp only [findColonIdx_append_colon h rest, List.take_left,
    fromCharsNat_digits h hne (show digitsToNat ds < sizeTBound by omega)]
  rw [if_neg (by omega), if_neg (by omega)]

/-! ## `process_incoming` step lemmas (one loop iteration each) -/

theorem piGo_nil (cfg : BTConfig) (s : BTState) : piGo cfg s [] = ([], .ok s) := by
  unfold piGo
  rfl

theorem piGo_len_empty_incomplete {cfg : BTConfig} {s : BTState} {req : List Char}
    (hreq : req ≠ []) (hcl : s.currentLen = 0) (hsb : s.sizeBuf = [])
    (hpl : parseLength cfg req = .incomplete) :
    piGo cfg s req = ([], .ok ⟨0, req, s.buf⟩) := by
  unfold piGo
  rw [dif_neg hreq, dif_pos hcl, dif_pos hsb]
  split <;> simp_all

theorem piGo_len_empty_err {cfg : BTConfig} {s : BTState} {req : List Char} {e : String}
    (hreq : req ≠ []) (hcl : s.currentLen = 0) (hsb : s.sizeBuf = [])
    (hpl : parseLength cfg req = .err e) :
    piGo cfg s req = ([], .fail e) := by
  unfold piGo
  rw [dif_neg hreq, dif_pos hcl, dif_pos hsb]
  split <;> simp_all

theorem piGo_len_empty_ok {cfg : BTConfig} {s : BTState} {req : List Char} {v k : Nat}
    (hreq : req ≠ []) (hcl : s.currentLen = 0) (hsb : s.sizeBuf = [])
    (hpl : parseLength cfg req = .ok v k) :
    piGo cfg s req = piBody cfg v [] s.buf (req.drop k) := by
  unfold piGo
  rw [dif_neg hreq, dif_pos hcl, dif_pos hsb]
  split <;> simp_all

theorem piGo_len_sb_incomplete {cfg : BTConfig} {s : BTState} {req : List Char}
    (hreq : req ≠ []) (hcl : s.currentLen = 0) (hsb : ¬ s.sizeBuf = [])
    (hpl : parseLength cfg (s.sizeBuf ++ req.take cfg.maxReqLenEncoded) = .incomplete) :
    piGo cfg s req = ([], .ok ⟨0, s.sizeBuf ++ req.take cfg.maxReqLenEncoded, s.buf⟩) := by
  unfold piGo
  rw [dif_neg hreq, dif_pos hcl, dif_neg hsb]
  split <;> simp_all

theorem piGo_len_sb_ok {cfg : BTConfig} {s : BTState} {req : List Char} {v k : Nat}
    (hreq : req ≠ []) (hcl : s.currentLen = 0) (hsb : ¬ s.sizeBuf = [])
    (hpl : parseLength cfg (s.sizeBuf ++ req.take cfg.maxReqLenEncoded) = .ok v k) :
    piGo cfg s req = piBody cfg v [] s.buf (req.drop (k - s.sizeBuf.length)) := by
  unfold piGo
  rw [dif_neg hreq, dif_pos hcl, dif_neg hsb]
  split <;> simp_all

theorem piGo_body {cfg : BTConfig} {s : BTState} {req : List Char}
    (hreq : req ≠ []) (hcl : ¬ s.currentLen = 0) :
    piGo cfg s req = piBody cfg s.currentLen s.sizeBuf s.buf req := by
  unfold piGo
  rw [dif_neg hreq, dif_neg hcl]

theorem piBody_complete {cfg : BTConfig} {len : Nat} {sizeBuf buf req : List Char}
    (h1 : len ≤ req.length + buf.length) (h2 : buf.length < len) :
    piBody cfg len sizeBuf buf req =
      ((buf ++ req.take (len - buf.length)) ::
          (piGo cfg ⟨0, sizeBuf, []⟩ (req.drop (len - buf.length))).1,
        (piGo cfg ⟨0, sizeBuf, []⟩ (req.drop (len - buf.length))).2) := by
  unfold piBody
  rw [dif_pos h1, dif_pos h2]

theorem piBody_incomplete {cfg : BTConfig} {len : Nat} {sizeBuf buf req : List Char}
    (h1 : ¬ len ≤ req.length + buf.length) :
    piBody cfg len sizeBuf buf req = ([], .ok ⟨len, sizeBuf, buf ++ req⟩) := by
  unfold piBody
  rw [dif_neg h1]

theorem drop_append_ge {α : Type} (l₁ l₂ : List α) {n : Nat} (h : l₁.length ≤ n) :
    (l₁ ++ l₂).drop n = l₂.drop (n - l₁.length) := by
  conv_lhs => rw [show n = l₁.length + (n - l₁.length) by omega]
  rw [List.drop_append]

theorem cons_as_append {α : Type} (l₁ : List α) (a : α) (l₂ : List α) :
    l₁ ++ a :: l₂ = (l₁ ++ [a]) ++ l₂ := by
  simp

/-! ## Canonical-state helper lemmas -/

theorem wireOf_length {cfg : BTConfig} (m : WFMsg cfg) :
    (wireOf m).length = m.lenStr.length + 1 + m.body.length := by
  simp [wireOf]
  omega

theorem one_le_lenStr_length {cfg : BTConfig} (m : WFMsg cfg) :
    1 ≤ m.lenStr.length := List.length_pos.mpr m.len_ne

theorem two_le_wireOf_length {cfg : BTConfig} (m : WFMsg cfg) :
    2 ≤ (wireOf m).length := by
  have := one_le_lenStr_length m
  rw [wireOf_length]
  omega

theorem one_le_msgVal {cfg : BTConfig} (m : WFMsg cfg) : 1 ≤ msgVal m := m.val_pos

theorem body_length_eq_msgVal {cfg : BTConfig} (m : WFMsg cfg) :
    m.body.length = msgVal m := m.body_len

theorem wire_cons (cfg : BTConfig) (m : WFMsg cfg) (ms : List (WFMsg cfg)) :
    wire cfg (m :: ms) = wireOf m ++ wire cfg ms := by
  simp [wire]

theorem wire_nil (cfg : BTConfig) : wire cfg [] = [] := rfl

theorem canonAt_zero (cfg : BTConfig) (ms : List (WFMsg cfg)) :
    canonAt cfg ms 0 = initState := by
  cases ms with
  | nil => rfl
  | cons m ms =>
    have h2 := two_le_wireOf_length m
    unfold canonAt
    rw [if_neg (by omega), if_pos (Nat.zero_le _)]
    simp [initState]

theorem deliveredUpTo_zero (cfg : BTConfig) (ms : List (WFMsg cfg)) :
    deliveredUpTo cfg ms 0 = [] := by
  cases ms with
  | nil => rfl
  | cons m ms =>
    have h2 := two_le_wireOf_length m
    unfold deliveredUpTo
    rw [if_neg (by omega)]

theorem canonAt_cons (cfg : BTConfig) (m : WFMsg cfg) (ms : List (WFMsg cfg)) (p : Nat) :
    canonAt cfg (m :: ms) p =
      if (wireOf m).length ≤ p then canonAt cfg ms (p - (wireOf m).length)
      else if p ≤ m.lenStr.length then ⟨0, m.lenStr.take p, []⟩
      else ⟨msgVal m, [], m.body.take (p - m.lenStr.length - 1)⟩ := rfl

theorem deliveredUpTo_cons (cfg : BTConfig) (m : WFMsg cfg) (ms : List (WFMsg cfg)) (p : Nat) :
    deliveredUpTo cfg (m :: ms) p =
      if (wireOf m).length ≤ p then
        m.body :: deliveredUpTo cfg ms (p - (wireOf m).length)
      else [] := rfl

theorem canonAt_full (cfg : BTConfig) (ms : List (WFMsg cfg)) :
    canonAt cfg ms (wire cfg ms).length = initState := by
  induction ms with
  | nil => rfl
  | cons m ms ih =>
    rw [wire_cons]
    unfold canonAt
    rw [if_pos (by simp)]
    simpa using ih

theorem deliveredUpTo_full (cfg : BTConfig) (ms : List (WFMsg cfg)) :
    deliveredUpTo cfg ms (wire cfg ms).length = ms.map (fun m => m.body) := by
  induction ms with
  | nil => rfl
  | cons m ms ih =>
    rw [wire_cons]
    unfold deliveredUpTo
    rw [if_pos (by simp)]
    simpa using ih

/-- The running flag at the end of a call sequence is determined by the last
successful transition (successful `start` leaves it `true`, successful `stop`
leaves it `false`, and with no successful transition it keeps its initial
value). -/
theorem tickerRun_state_eq_lastSuccess (init : Bool) (ops : List TickerOp) :
    (tickerRun init ops).2 =
      (match tickerLastSuccess init ops with
       | some .start => true
       | some .stop => false
       | none => init) := by
  induction ops generalizing init with
  | nil => rfl
  | cons op ops ih =>
    cases op <;> cases init <;>
      simp only [tickerRun, tickerStep, tickerStart, tickerStop,
        tickerLastSuccess, ih, Bool.not_true, Bool.not_false, if_true, if_false,
        ite_true, ite_false, Bool.false_eq_true, Bool.true_eq_false] <;>
      (cases h : tickerLastSuccess _ ops with
       | none => simp [h]
       | some o => cases o <;> simp [h])

/-- C5: with the underlying timer arm/disarm operations succeeding, a Ticker
that is stopped answers `start(); start()` with `true` then `false` (ending
running), a running Ticker answers `stop(); stop()` with `true` then `false`
(ending stopped), the second of two consecutive identical calls always
returns `false`, and after any sequence of start/stop calls from
construction (`_is_running{false}`), `is_running()` is `true` exactly when
the last successful transition was a `start`. -/
theorem ticker_start_stop_flag_discipline :
    tickerRun false [.start, .start] = ([true, false], true) ∧
    tickerRun true [.stop, .stop] = ([true, false], false) ∧
    (∀ s : Bool, (tickerRun s [.start, .start]).1.getLast? = some false ∧
      (tickerRun s [.stop, .stop]).1.getLast? = some false) ∧
    (∀ ops : List TickerOp,
      ((tickerRun false ops).2 = true ↔ tickerLastSuccess false ops = some .start)) := by
  refine ⟨by decide, by decide, by decide, fun ops => ?_⟩
  rw [tickerRun_state_eq_lastSuccess]
  cases h : tickerLastSuccess false ops with
  | none => simp
  | some o => cases o <;> simp

/-- A cancelled weak-bound ticker never fires again. -/
theorem weakRun_cancelled (l : List Bool) :
    weakRun true l = List.replicate l.length ⟨false, false⟩ := by
  induction l with
  | nil => rfl
  | cons x xs ih => simp [weakRun, weakFire, ih, List.replicate_succ]

/-- C6: a weak-bound ticker created by `call_every(interval, weak_owner, f)`,
run over `a` fires with the owner alive followed by `b` slots after the
owner was dropped, runs `f` exactly on the `a` alive fires; the first slot
after the drop fires once (observing the failed upgrade) without running
`f` and cancels the ticker; no later slot fires at all.  In particular the
timer fires at most once after the drop and that fire runs no user
callback. -/
theorem weak_ticker_cancels_after_owner_drop (a b : Nat) :
    weakRun false (List.replicate a true ++ List.replicate b false) =
      List.replicate a ⟨true, true⟩ ++
        (if b = 0 then []
         else ⟨true, false⟩ :: List.replicate (b - 1) ⟨false, false⟩) ∧
    (∀ out ∈ (weakRun false (List.replicate a true ++ List.replicate b false)).drop a,
      out.ran = false) ∧
    ((weakRun false (List.replicate a true ++ List.replicate b false)).drop a).countP
      (·.fired) ≤ 1 := by
  have main : ∀ a b : Nat,
      weakRun false (List.replicate a true ++ List.replicate b false) =
        List.replicate a ⟨true, true⟩ ++
          (if b = 0 then []
           else ⟨true, false⟩ :: List.replicate (b - 1) ⟨false, false⟩) := by
    intro a
    induction a with
    | zero =>
      intro b
      cases b with
      | zero => rfl
      | succ b =>
        simp [weakRun, weakFire, weakRun_cancelled, List.replicate_succ]
    | succ a ih =>
      intro b
      simp [List.replicate_succ, weakRun, weakFire, ih b]
  have hdrop : (weakRun false (List.replicate a true ++ List.replicate b false)).drop a =
      (if b = 0 then []
       else ⟨true, false⟩ :: List.replicate (b - 1) (⟨false, false⟩ : WeakFireOut)) := by
    rw [main a b]
    exact List.drop_left' (by simp)
  refine ⟨main a b, ?_, ?_⟩
  · rw [hdrop]
    cases b with
    | zero => simp
    | succ b =>
      intro out hout
      simp only [Nat.succ_ne_zero, if_false] at hout
      rcases List.mem_cons.mp hout with h | h
      · rw [h]
      · exact (List.eq_of_mem_replicate h) ▸ rfl
  · rw [hdrop]
    cases b with
    | zero => simp
    | succ b =>
      have h0 : (List.replicate b (⟨false, false⟩ : WeakFireOut)).countP (·.fired) = 0 :=
        List.countP_eq_zero.mpr
          (fun out hout => by simp [List.eq_of_mem_replicate hout])
      simp [List.countP_cons, h0]

/-- C7: `call_later` rebasing.  On the Loop thread the one-shot is scheduled
directly with the full delay; off-thread, the target instant
`submitTime + delay` is snapshotted at submission, and at processing time
the job runs `f` immediately exactly when the residual
`target - processTime` is ≤ 0 and otherwise schedules a one-shot for
exactly that residual. -/
theorem call_later_rebases_offthread_delay (inLoop : Bool)
    (submitTime delay processTime : Int) :
    callLater inLoop submitTime delay processTime =
      callLaterSpec inLoop submitTime delay processTime := by
  unfold callLater callLaterSpec
  cases inLoop with
  | true => rfl
  | false =>
    simp only [Bool.false_eq_true, if_false]
    by_cases h : processTime ≥ submitTime + delay
    · rw [if_pos h, if_pos (by omega)]
    · rw [if_neg h, if_neg (by omega)]

/-- C8: `Loop::stop_tickers(id)` stops and clears the callbacks of exactly
the live tickers registered under `id`: every other caller id's list
(including the Loop's own reserved id 0) is left unchanged, and under `id`
each live ticker is stopped with its callback cleared while expired entries
are untouched.  Hence a Network destructor, which calls
`stop_tickers(net_id)`, does not disturb tickers of sibling Networks or of
the Loop itself. -/
theorem stop_tickers_exact_frame (id : CallerId) (reg : CallerId → List TickRec) :
    (∀ k, k ≠ id → stopTickers id reg k = reg k) ∧
    (id ≠ loopId → stopTickers id reg loopId = reg loopId) ∧
    stopTickers id reg id = (reg id).map stopTickRec ∧
    (∀ t ∈ reg id,
      (t.alive = true → stopTickRec t = { t with running := false, hasCb := false }) ∧
      (t.alive = false → stopTickRec t = t)) := by
  refine ⟨fun k hk => ?_, fun h => ?_, ?_, fun t _ => ⟨fun ht => ?_, fun ht => ?_⟩⟩
  · simp [stopTickers, hk]
  · simp [stopTickers, Ne.symm h]
  · simp [stopTickers]
  · simp [stopTickRec, ht]
  · simp [stopTickRec, ht]

theorem stop_tickers_exact_frame_witness :
    ((0 : CallerId) ≠ 3 ∧ (3 : CallerId) ≠ loopId ∧
      (⟨true, true, true⟩ : TickRec) ∈ regEx 3 ∧
      (⟨false, true, true⟩ : TickRec) ∈ regEx 3) ∧
    stopTickers 3 regEx 0 = regEx 0 ∧
    stopTickers 3 regEx loopId = regEx loopId ∧
    stopTickers 3 regEx 3 = (regEx 3).map stopTickRec ∧
    stopTickRec ⟨true, true, true⟩ = ⟨true, false, false⟩ ∧
    stopTickRec ⟨false, true, true⟩ = ⟨false, true, true⟩ :=
  ⟨⟨by decide, by decide, by simp [regEx], by simp [regEx]⟩,
    (stop_tickers_exact_frame 3 regEx).1 0 (by decide),
    (stop_tickers_exact_frame 3 regEx).2.1 (by decide),
    (stop_tickers_exact_frame 3 regEx).2.2.1,
    ((stop_tickers_exact_frame 3 regEx).2.2.2 ⟨true, true, true⟩
      (by simp [regEx])).1 rfl,
    ((stop_tickers_exact_frame 3 regEx).2.2.2 ⟨false, true, true⟩
      (by simp [regEx])).2 rfl⟩

theorem netIdAfter_eq_mod (k : Nat) : netIdAfter k = k % 65536 := by
  induction k with
  | zero => rfl
  | succ k ih =>
    simp only [netIdAfter, nextNetIdStep, ih]
    omega

/-- C10 counterexample: the 65536th Network construction wraps the shared
`uint16_t` counter to 0, so that Network receives caller id 0, which is
exactly the Loop's reserved internal caller id — contradicting the claim
that no Network's caller-id ever collides with it. -/
theorem net_id_wraps_to_loop_id : netIdAfter 65536 = loopId := by
  rw [netIdAfter_eq_mod]
  rfl

/-- C10 (amended): each Network construction increments the shared 16-bit
counter modulo 2^16 and the `k`-th constructed Network receives caller id
`k mod 2^16`; among the first 65535 constructions the assigned ids are
pairwise distinct and never collide with the Loop's reserved caller id 0.
(The 65536th construction wraps to 0 and does collide.) -/
theorem net_id_fresh_before_wrap (j k : Nat) (h1 : 1 ≤ j) (h2 : j < k)
    (h3 : k ≤ 65535) :
    netIdAfter j ≠ netIdAfter k ∧ netIdAfter k ≠ loopId := by
  rw [netIdAfter_eq_mod, netIdAfter_eq_mod]
  unfold loopId
  constructor <;> omega

/-- One body-phase iteration from the canonical mid-body state (`j` body
bytes already buffered, the next `c₂` wire bytes arriving): it delivers the
message exactly when its last byte is included, and lands in the canonical
state. -/
theorem piBody_canon (cfg : BTConfig) (m : WFMsg cfg) (tail : List (WFMsg cfg))
    (j c₂ : Nat) (hj : j < m.body.length)
    (hc : c₂ ≤ m.body.length - j + (wire cfg tail).length)
    (ih : ∀ c', c' < c₂ → MainProp cfg c') :
    ∃ out,
      piBody cfg (msgVal m) [] (m.body.take j)
          ((m.body.drop j ++ wire cfg tail).take c₂) =
        (out, .ok (canonAt cfg (m :: tail) (m.lenStr.length + 1 + j + c₂))) ∧
      out = deliveredUpTo cfg (m :: tail) (m.lenStr.length + 1 + j + c₂) := by
  have hbl : m.body.length = msgVal m := body_length_eq_msgVal m
  have hv1 : 1 ≤ msgVal m := one_le_msgVal m
  have hw : (wireOf m).length = m.lenStr.length + 1 + m.body.length := wireOf_length m
  have hreqlen : ((m.body.drop j ++ wire cfg tail).take c₂).length = c₂ := by
    simp only [List.length_take, List.length_append, List.length_drop]
    omega
  have hbuflen : (m.body.take j).length = j := by
    simp only [List.length_take]
    omega
  by_cases h1 : msgVal m ≤ c₂ + j
  · have hdl : (m.body.drop j).length = msgVal m - j := by
      simp only [List.length_drop]
      omega
    have hmsg : m.body.take j ++
        ((m.body.drop j ++ wire cfg tail).take c₂).take (msgVal m - j) = m.body := by
      rw [List.take_take]
      rw [show min (msgVal m - j) c₂ = msgVal m - j by omega]
      rw [List.take_append_of_le_length (by simp only [List.length_drop]; omega)]
      rw [show (m.body.drop j).take (msgVal m - j) = m.body.drop j from
        List.take_of_length_le (by simp only [List.length_drop]; omega)]
      exact List.take_append_drop j m.body
    have hreq' : ((m.body.drop j ++ wire cfg tail).take c₂).drop (msgVal m - j) =
        (wire cfg tail).take (c₂ - (msgVal m - j)) := by
      rw [List.drop_take]
      congr 1
      rw [← hdl, List.drop_left]
    obtain ⟨out', hpi, hdel⟩ := ih (c₂ - (msgVal m - j)) (by omega) tail 0
      (by
        rw [Nat.zero_add]
        omega)
    rw [canonAt_zero, List.drop_zero, Nat.zero_add] at hpi
    rw [deliveredUpTo_zero, List.nil_append, Nat.zero_add] at hdel
    rw [piBody_complete (by rw [hreqlen, hbuflen]; omega) (by rw [hbuflen]; omega)]
    rw [hbuflen, hmsg, hreq']
    rw [show (⟨0, [], []⟩ : BTState) = initState from rfl, hpi]
    refine ⟨m.body :: out', ?_, ?_⟩
    · rw [canonAt_cons, if_pos (by omega)]
      rw [show m.lenStr.length + 1 + j + c₂ - (wireOf m).length =
        c₂ - (msgVal m - j) by omega]
    · rw [deliveredUpTo_cons, if_pos (by omega)]
      rw [show m.lenStr.length + 1 + j + c₂ - (wireOf m).length =
        c₂ - (msgVal m - j) by omega]
      rw [hdel]
  · rw [piBody_incomplete (by rw [hreqlen, hbuflen]; omega)]
    refine ⟨[], ?_, ?_⟩
    · have htk : (m.body.drop j ++ wire cfg tail).take c₂ = (m.body.drop j).take c₂ :=
        List.take_append_of_le_length (by simp only [List.length_drop]; omega)
      rw [htk, ← List.take_add]
      rw [canonAt_cons, if_neg (by omega), if_neg (by omega)]
      rw [show m.lenStr.length + 1 + j + c₂ - m.lenStr.length - 1 = j + c₂ by omega]
    · rw [deliveredUpTo_cons, if_neg (by omega)]

/-- Chunk-invariance of `process_incoming`: from the canonical state at any
position `p` of a well-formed wire, processing any number `c` of further
wire bytes lands in the canonical state at `p + c` and delivers exactly the
messages completed in between. -/
theorem mainProp_all (cfg : BTConfig) (h64 : cfg.maxReqLen < sizeTBound) :
    ∀ c, MainProp cfg c := by
  intro c
  induction c using Nat.strong_induction_on with
  | _ c IHc =>
    intro ms
    induction ms with
    | nil =>
      intro p hp
      simp only [wire_nil, List.length_nil] at hp
      have hp0 : p = 0 := by omega
      have hc0 : c = 0 := by omega
      subst hp0
      subst hc0
      exact ⟨[], by simp [piGo_nil, wire_nil], by simp⟩
    | cons m tail IHms =>
      intro p hp
      have hw2 := two_le_wireOf_length m
      have hwlen : (wireOf m).length = m.lenStr.length + 1 + m.body.length :=
        wireOf_length m
      have hL1 := one_le_lenStr_length m
      have hbl : m.body.length = msgVal m := body_length_eq_msgVal m
      have hv1 : 1 ≤ msgVal m := one_le_msgVal m
      have hcap : m.lenStr.length + 1 ≤ cfg.maxReqLenEncoded := m.len_short
      rw [wire_cons] at hp ⊢
      simp only [List.length_append] at hp
      by_cases hA : (wireOf m).length ≤ p
      · -- the position is past message m: shift into the tail
        obtain ⟨out, hpi, hdel⟩ := IHms (p - (wireOf m).length) (by omega)
        have hdropw : (wireOf m ++ wire cfg tail).drop p =
            (wire cfg tail).drop (p - (wireOf m).length) :=
          drop_append_ge _ _ hA
        refine ⟨out, ?_, ?_⟩
        · rw [canonAt_cons, if_pos hA, canonAt_cons, if_pos (by omega)]
          rw [show p + c - (wireOf m).length = p - (wireOf m).length + c by omega]
          rw [hdropw]
          exact hpi
        · rw [deliveredUpTo_cons, if_pos hA, deliveredUpTo_cons, if_pos (by omega)]
          rw [show p + c - (wireOf m).length = p - (wireOf m).length + c by omega]
          rw [List.cons_append, hdel]
      · by_cases hc0 : c = 0
        · subst hc0
          refine ⟨[], ?_, by simp⟩
          rw [List.take_zero, piGo_nil, Nat.add_zero]
        · have hc1 : 1 ≤ c := by omega
          have hsplit : wireOf m ++ wire cfg tail =
              m.lenStr ++ ':' :: (m.body ++ wire cfg tail) := by
            simp [wireOf]
          by_cases hB : p ≤ m.lenStr.length
          · by_cases hp0 : p = 0
            · subst hp0
              rw [canonAt_zero, List.drop_zero, hsplit]
              by_cases hcL : c ≤ m.lenStr.length
              · -- the whole chunk is part of the length prefix
                have hseg : (m.lenStr ++ ':' :: (m.body ++ wire cfg tail)).take c =
                    m.lenStr.take c := List.take_append_of_le_length hcL
                rw [hseg]
                have hlentake : (m.lenStr.take c).length = c := by
                  simp only [List.length_take]
                  omega
                have hne : m.lenStr.take c ≠ [] :=
                  List.ne_nil_of_length_pos (by omega)
                rw [piGo_len_empty_incomplete hne rfl rfl
                  (parseLength_digits_incomplete cfg
                    (fun x hx => m.len_digits x (List.take_subset _ _ hx))
                    (by omega))]
                refine ⟨[], ?_, ?_⟩
                · rw [canonAt_cons, if_neg (by omega), if_pos (by omega)]
                  rw [Nat.zero_add]
                  rfl
                · rw [deliveredUpTo_zero, List.nil_append, Nat.zero_add,
                    deliveredUpTo_cons, if_neg (by omega)]
              · -- the colon (and possibly more) is inside the chunk
                have hcL' : m.lenStr.length + 1 ≤ c := by omega
                have hseg : (m.lenStr ++ ':' :: (m.body ++ wire cfg tail)).take c =
                    m.lenStr ++ ':' ::
                      ((m.body ++ wire cfg tail).take (c - m.lenStr.length - 1)) := by
                  conv_lhs =>
                    rw [show c = m.lenStr.length + (c - m.lenStr.length) by omega]
                    rw [List.take_append]
                    rw [show c - m.lenStr.length = (c - m.lenStr.length - 1) + 1 by omega]
                    rw [List.take_succ_cons]
                rw [hseg]
                have hne : m.lenStr ++ ':' ::
                    ((m.body ++ wire cfg tail).take (c - m.lenStr.length - 1)) ≠ [] := by
                  simp
                rw [piGo_len_empty_ok hne rfl rfl
                  (parseLength_digits_ok cfg _ m.len_digits m.len_ne m.val_pos
                    m.val_le h64)]
                have hdropseg : (m.lenStr ++ ':' ::
                    ((m.body ++ wire cfg tail).take (c - m.lenStr.length - 1))).drop
                      (m.lenStr.length + 1) =
                    (m.body ++ wire cfg tail).take (c - m.lenStr.length - 1) := by
                  rw [cons_as_append]
                  rw [drop_append_ge _ _ (by simp)]
                  simp
                rw [hdropseg]
                obtain ⟨out, hbody, hdel⟩ := piBody_canon cfg m tail 0
                  (c - m.lenStr.length - 1) (by omega) (by omega)
                  (fun c' hc' => IHc c' (by omega))
                simp only [List.take_zero, List.drop_zero] at hbody hdel
                rw [show m.lenStr.length + 1 + 0 + (c - m.lenStr.length - 1) = c
                  by omega] at hbody hdel
                refine ⟨out, ?_, ?_⟩
                · rw [Nat.zero_add]
                  rw [show initState.buf = ([] : List Char) from rfl]
                  rw [show digitsToNat m.lenStr = msgVal m from rfl]
                  exact hbody
                · rw [deliveredUpTo_zero, List.nil_append, Nat.zero_add]
                  exact hdel
            · -- inside the length prefix with 1 ≤ p ≤ L
              have hp1 : 1 ≤ p := by omega
              rw [canonAt_cons, if_neg (by omega), if_pos hB]
              have hdlen : (m.lenStr.drop p).length = m.lenStr.length - p := by
                simp
              have hdropwire : (wireOf m ++ wire cfg tail).drop p =
                  m.lenStr.drop p ++ ':' :: (m.body ++ wire cfg tail) := by
                rw [hsplit, List.drop_append_of_le_length hB]
              rw [hdropwire]
              have hsbtake : (m.lenStr.take p).length = p := by
                simp only [List.length_take]
                omega
              have hsbne : m.lenStr.take p ≠ [] :=
                List.ne_nil_of_length_pos (by omega)
              by_cases hcd : c ≤ m.lenStr.length - p
              · -- the chunk stays inside the digits
                have hseg : (m.lenStr.drop p ++ ':' :: (m.body ++ wire cfg tail)).take c =
                    (m.lenStr.drop p).take c :=
                  List.take_append_of_le_length (by omega)
                rw [hseg]
                have hclen : ((m.lenStr.drop p).take c).length = c := by
                  simp only [List.length_take, List.length_drop]
                  omega
                have hreqne : (m.lenStr.drop p).take c ≠ [] :=
                  List.ne_nil_of_length_pos (by omega)
                have htakeall : ((m.lenStr.drop p).take c).take cfg.maxReqLenEncoded =
                    (m.lenStr.drop p).take c :=
                  List.take_of_length_le (by omega)
                have hcomb : m.lenStr.take p ++ (m.lenStr.drop p).take c =
                    m.lenStr.take (p + c) := (List.take_add _ _ _).symm
                have hpl : parseLength cfg
                    (m.lenStr.take p ++ ((m.lenStr.drop p).take c).take
                      cfg.maxReqLenEncoded) = .incomplete := by
                  rw [htakeall, hcomb]
                  exact parseLength_digits_incomplete cfg
                    (fun x hx => m.len_digits x (List.take_subset _ _ hx))
                    (by simp only [List.length_take]; omega)
                rw [piGo_len_sb_incomplete hreqne rfl (by simpa using hsbne) hpl]
                refine ⟨[], ?_, ?_⟩
                · rw [show (⟨0, m.lenStr.take p, []⟩ : BTState).sizeBuf =
                    m.lenStr.take p from rfl]
                  rw [show (⟨0, m.lenStr.take p, []⟩ : BTState).buf =
                    ([] : List Char) from rfl]
                  rw [htakeall, hcomb]
                  rw [canonAt_cons, if_neg (by omega), if_pos (by omega)]
                · rw [deliveredUpTo_cons, if_neg (by omega),
                    deliveredUpTo_cons, if_neg (by omega)]
                  rfl
              · -- the colon is inside the chunk
                set d := m.lenStr.length - p with hd
                have hcd' : d + 1 ≤ c := by omega
                have hseg : (m.lenStr.drop p ++ ':' :: (m.body ++ wire cfg tail)).take c =
                    m.lenStr.drop p ++ ':' ::
                      ((m.body ++ wire cfg tail).take (c - d - 1)) := by
                  conv_lhs =>
                    rw [show c = (m.lenStr.drop p).length + (c - d) by
                      rw [hdlen]; omega]
                    rw [List.take_append]
                    rw [show c - d = (c - d - 1) + 1 by omega]
                    rw [List.take_succ_cons]
                rw [hseg]
                have hreqne : m.lenStr.drop p ++ ':' ::
                    ((m.body ++ wire cfg tail).take (c - d - 1)) ≠ [] := by
                  simp
                have hcapseg : (m.lenStr.drop p ++ ':' ::
                    ((m.body ++ wire cfg tail).take (c - d - 1))).take
                      cfg.maxReqLenEncoded =
                    m.lenStr.drop p ++ ':' ::
                      ((m.body ++ wire cfg tail).take (c - d - 1)).take
                        (cfg.maxReqLenEncoded - d - 1) := by
                  conv_lhs =>
                    rw [show cfg.maxReqLenEncoded =
                      (m.lenStr.drop p).length + (cfg.maxReqLenEncoded - d) by
                      rw [hdlen]; omega]
                    rw [List.take_append]
                    rw [show cfg.maxReqLenEncoded - d =
                      (cfg.maxReqLenEncoded - d - 1) + 1 by omega]
                    rw [List.take_succ_cons]
                have hcomb : m.lenStr.take p ++ (m.lenStr.drop p ++ ':' ::
                    ((m.body ++ wire cfg tail).take (c - d - 1)).take
                      (cfg.maxReqLenEncoded - d - 1)) =
                    m.lenStr ++ ':' ::
                      ((m.body ++ wire cfg tail).take (c - d - 1)).take
                        (cfg.maxReqLenEncoded - d - 1) := by
                  rw [← List.append_assoc, List.take_append_drop]
                have hpl : parseLength cfg
                    (m.lenStr.take p ++ ((m.lenStr.drop p ++ ':' ::
                      ((m.body ++ wire cfg tail).take (c - d - 1))).take
                        cfg.maxReqLenEncoded)) =
                    .ok (digitsToNat m.lenStr) (m.lenStr.length + 1) := by
                  rw [hcapseg, hcomb]
                  exact parseLength_digits_ok cfg _ m.len_digits m.len_ne m.val_pos
                    m.val_le h64
                rw [piGo_len_sb_ok hreqne rfl (by simpa using hsbne) hpl]
                rw [show (⟨0, m.lenStr.take p, []⟩ : BTState).sizeBuf =
                  m.lenStr.take p from rfl]
                rw [show (⟨0, m.lenStr.take p, []⟩ : BTState).buf =
                  ([] : List Char) from rfl]
                rw [hsbtake]
                have hdropseg : (m.lenStr.drop p ++ ':' ::
                    ((m.body ++ wire cfg tail).take (c - d - 1))).drop
                      (m.lenStr.length + 1 - p) =
                    (m.body ++ wire cfg tail).take (c - d - 1) := by
                  rw [cons_as_append]
                  rw [drop_append_ge _ _ (by simp [hdlen]; omega)]
                  simp only [List.length_append, List.length_drop,
                    List.length_singleton]
                  rw [show m.lenStr.length + 1 - p -
                    (m.lenStr.length - p + 1) = 0 by omega]
                  rfl
                rw [hdropseg]
                obtain ⟨out, hbody, hdel⟩ := piBody_canon cfg m tail 0 (c - d - 1)
                  (by omega) (by omega) (fun c' hc' => IHc c' (by omega))
                simp only [List.take_zero, List.drop_zero] at hbody hdel
                rw [show m.lenStr.length + 1 + 0 + (c - d - 1) = p + c
                  by omega] at hbody hdel
                refine ⟨out, ?_, ?_⟩
                · rw [show digitsToNat m.lenStr = msgVal m from rfl]
                  exact hbody
                · rw [deliveredUpTo_cons, if_neg (by omega), List.nil_append]
                  exact hdel
          · -- mid-body position
            have hpL : m.lenStr.length + 1 ≤ p := by omega
            have hj : p - m.lenStr.length - 1 < m.body.length := by omega
            rw [canonAt_cons, if_neg (by omega), if_neg (by omega)]
            have hdropwire : (wireOf m ++ wire cfg tail).drop p =
                m.body.drop (p - m.lenStr.length - 1) ++ wire cfg tail := by
              rw [hsplit, cons_as_append]
              rw [drop_append_ge _ _ (by simp; omega)]
              rw [List.drop_append_of_le_length (by simp; omega)]
              congr 2
              simp
              omega
            rw [hdropwire]
            have hreqne : (m.body.drop (p - m.lenStr.length - 1) ++
                wire cfg tail).take c ≠ [] := by
              apply List.ne_nil_of_length_pos
              simp only [List.length_take, List.length_append, List.length_drop]
              omega
            rw [piGo_body hreqne (by
              rw [show (⟨msgVal m, [], m.body.take (p - m.lenStr.length - 1)⟩ :
                BTState).currentLen = msgVal m from rfl]
              omega)]
            rw [show (⟨msgVal m, [], m.body.take (p - m.lenStr.length - 1)⟩ :
              BTState).currentLen = msgVal m from rfl]
            rw [show (⟨msgVal m, [], m.body.take (p - m.lenStr.length - 1)⟩ :
              BTState).sizeBuf = ([] : List Char) from rfl]
            rw [show (⟨msgVal m, [], m.body.take (p - m.lenStr.length - 1)⟩ :
              BTState).buf = m.body.take (p - m.lenStr.length - 1) from rfl]
            obtain ⟨out, hbody, hdel⟩ := piBody_canon cfg m tail
              (p - m.lenStr.length - 1) c hj (by omega)
              (fun c' hc' => IHc c' (by omega))
            rw [show m.lenStr.length + 1 + (p - m.lenStr.length - 1) + c = p + c
              by omega] at hbody hdel
            refine ⟨out, ?_, ?_⟩
            · exact hbody
            · rw [deliveredUpTo_cons, if_neg (by omega), List.nil_append]
              exact hdel

theorem feedChunks_nil (cfg : BTConfig) (s : BTState) :
    feedChunks cfg s [] = ([], .ok s) := rfl

theorem feedChunks_cons_ok {cfg : BTConfig} {s : BTState} {ch : List Char}
    {msgs : List (List Char)} {s' : BTState} (chs : List (List Char))
    (h : piGo cfg s ch = (msgs, .ok s')) :
    feedChunks cfg s (ch :: chs) =
      (msgs ++ (feedChunks cfg s' chs).1, (feedChunks cfg s' chs).2) := by
  conv_lhs => rw [feedChunks, h]

/-- Folding a chunk sequence that continues a well-formed wire from a
canonical position steps through canonical positions and collects exactly
the newly completed messages. -/
theorem feedChunks_canon (cfg : BTConfig) (h64 : cfg.maxReqLen < sizeTBound)
    (ms : List (WFMsg cfg)) :
    ∀ (chunks : List (List Char)) (p : Nat) (rest : List Char),
      p ≤ (wire cfg ms).length →
      (wire cfg ms).drop p = chunks.flatten ++ rest →
      ∃ out,
        feedChunks cfg (canonAt cfg ms p) chunks =
          (out, .ok (canonAt cfg ms (p + chunks.flatten.length))) ∧
        deliveredUpTo cfg ms p ++ out =
          deliveredUpTo cfg ms (p + chunks.flatten.length) := by
  intro chunks
  induction chunks with
  | nil =>
    intro p rest hp h
    exact ⟨[], by simp [feedChunks_nil], by simp⟩
  | cons ch chs ih =>
    intro p rest hp h
    have h' : (wire cfg ms).drop p = ch ++ (chs.flatten ++ rest) := by
      rw [h]
      simp [List.append_assoc]
    have hlen : (wire cfg ms).length - p =
        ch.length + (chs.flatten.length + rest.length) := by
      have := congrArg List.length h'
      simpa [List.length_drop, List.length_append] using this
    obtain ⟨out1, hpi, hdel1⟩ := mainProp_all cfg h64 ch.length ms p (by omega)
    rw [h', List.take_left] at hpi
    have hdrop2 : (wire cfg ms).drop (p + ch.length) = chs.flatten ++ rest := by
      rw [← List.drop_drop, h', List.drop_left]
    obtain ⟨out2, hfc, hdel2⟩ := ih (p + ch.length) rest (by omega) hdrop2
    rw [feedChunks_cons_ok chs hpi, hfc]
    refine ⟨out1 ++ out2, ?_, ?_⟩
    · rw [show p + (ch :: chs).flatten.length =
        p + ch.length + chs.flatten.length by simp; omega]
    · rw [show p + (ch :: chs).flatten.length =
        p + ch.length + chs.flatten.length by simp; omega]
      rw [← List.append_assoc, hdel1, hdel2]

/-- C3: for every sequence of complete well-formed framed messages and every
partition of its wire bytes into (nonempty) chunks, feeding the chunks to
`process_incoming` in order yields exactly the same delivered message
sequence — the message bodies, in order — as feeding all bytes in a single
call (in particular byte-at-a-time and all-at-once agree), both ending in
the initial parser state; and after any number of chunks the delivered
messages are exactly those whose bytes have all arrived (a message is
delivered only once complete). -/
theorem process_incoming_chunk_invariant (cfg : BTConfig)
    (h64 : cfg.maxReqLen < sizeTBound) (ms : List (WFMsg cfg))
    (chunks : List (List Char)) (hne : ∀ ch ∈ chunks, ch ≠ [])
    (hjoin : chunks.flatten = wire cfg ms) :
    feedChunks cfg initState chunks = processIncoming cfg initState (wire cfg ms) ∧
    feedChunks cfg initState chunks = (ms.map (fun m => m.body), .ok initState) ∧
    (∀ k, (feedChunks cfg initState (chunks.take k)).1 =
      deliveredUpTo cfg ms ((chunks.take k).flatten).length) := by
  have hsingle : processIncoming cfg initState (wire cfg ms) =
      (ms.map (fun m => m.body), .ok initState) := by
    obtain ⟨out, hpi, hdel⟩ :=
      mainProp_all cfg h64 (wire cfg ms).length ms 0 (by omega)
    rw [canonAt_zero, List.drop_zero, List.take_length, Nat.zero_add,
      canonAt_full] at hpi
    rw [deliveredUpTo_zero, List.nil_append, Nat.zero_add,
      deliveredUpTo_full] at hdel
    unfold processIncoming
    rw [hpi, hdel]
  have hchunks : feedChunks cfg initState chunks =
      (ms.map (fun m => m.body), .ok initState) := by
    obtain ⟨out, hfc, hdel⟩ := feedChunks_canon cfg h64 ms chunks 0 []
      (by omega) (by rw [List.drop_zero, hjoin, List.append_nil])
    rw [canonAt_zero, Nat.zero_add, hjoin, canonAt_full] at hfc
    rw [deliveredUpTo_zero, List.nil_append, Nat.zero_add, hjoin,
      deliveredUpTo_full] at hdel
    rw [hfc, hdel]
  refine ⟨by rw [hchunks, hsingle], hchunks, fun k => ?_⟩
  obtain ⟨out, hfc, hdel⟩ := feedChunks_canon cfg h64 ms (chunks.take k) 0
    ((chunks.drop k).flatten)
    (by omega)
    (by rw [List.drop_zero, ← hjoin, ← List.flatten_append, List.take_append_drop])
  rw [canonAt_zero, Nat.zero_add] at hfc
  rw [deliveredUpTo_zero, List.nil_append, Nat.zero_add] at hdel
  rw [hfc]
  simpa using hdel

/-- A concrete chunk partition of the wire bytes of `wfMsgEx`. -/
theorem process_incoming_chunk_invariant_witness :
    (btCfgEx.maxReqLen < sizeTBound ∧
      (∀ ch ∈ [['2', ':'], ['h', 'i']], ch ≠ ([] : List Char)) ∧
      ([['2', ':'], ['h', 'i']] : List (List Char)).flatten =
        wire btCfgEx [wfMsgEx]) ∧
    feedChunks btCfgEx initState [['2', ':'], ['h', 'i']] =
      ([['h', 'i']], .ok initState) :=
  ⟨⟨by decide, by decide, rfl⟩,
    (process_incoming_chunk_invariant btCfgEx (by decide) [wfMsgEx]
      [['2', ':'], ['h', 'i']] (by decide) rfl).2.1⟩

/-- C4: the `parse_length` contract.  It returns 0 (incomplete, leaving
`current_len` untouched) iff the input has no colon and is shorter than
`MAX_REQ_LEN_ENCODED`; with no colon and at least `MAX_REQ_LEN_ENCODED`
bytes it throws; with a colon, if the parsed decimal is 0 or exceeds
`MAX_REQ_LEN` it throws (and at the stream level the stream is closed with
the protocol-error code `BPARSER_ERROR_EXCEPTION`); otherwise it sets
`current_len` to the decimal and consumes the prefix including the colon;
and a `parse_length` error at the receive level closes the stream and
delivers no message. -/
theorem parse_length_contract (cfg : BTConfig) (hcap : 0 < cfg.maxReqLenEncoded)
    (req : List Char) :
    (parseLength cfg req = .incomplete ↔
      findColonIdx req = none ∧ req.length < cfg.maxReqLenEncoded) ∧
    (findColonIdx req = none → cfg.maxReqLenEncoded ≤ req.length →
      parseLength cfg req =
        .err "Invalid incoming request; invalid encoding or request too large") ∧
    (∀ pos v, findColonIdx req = some pos → fromCharsNat (req.take pos) = some v →
      ((v = 0 ∨ cfg.maxReqLen < v) → ∃ e, parseLength cfg req = .err e) ∧
      (0 < v → v ≤ cfg.maxReqLen → parseLength cfg req = .ok v (pos + 1))) ∧
    (∀ e, parseLength cfg req = .err e →
      btReceive cfg ⟨initState, none⟩ req =
        (⟨initState, some BPARSER_ERROR_EXCEPTION⟩, [])) := by
  refine ⟨?_, ?_, ?_, ?_⟩
  · constructor
    · intro h
      unfold parseLength at h
      rcases hf : findColonIdx req with _ | pos <;> rw [hf] at h
      · refine ⟨rfl, ?_⟩
        by_contra hcon
        rw [if_pos (by omega)] at h
        exact absurd h (by simp)
      · exfalso
        rcases hv : fromCharsNat (req.take pos) with _ | v <;>
          simp only [hv] at h
        · exact absurd h (by simp)
        · split at h
          · exact absurd h (by simp)
          · split at h <;> exact absurd h (by simp)
    · rintro ⟨hf, hlen⟩
      unfold parseLength
      rw [hf]
      rw [if_neg (by omega)]
  · intro hf hlen
    unfold parseLength
    rw [hf]
    rw [if_pos hlen]
  · intro pos v hf hv
    constructor
    · intro hbad
      unfold parseLength
      rw [hf]
      simp only [hv]
      rcases hbad with h0 | hgt
      · rw [if_pos h0]
        exact ⟨_, rfl⟩
      · rw [if_neg (by omega), if_pos hgt]
        exact ⟨_, rfl⟩
    · intro hpos hle
      unfold parseLength
      rw [hf]
      simp only [hv]
      rw [if_neg (by omega), if_neg (by omega)]
  · intro e he
    have hreq : req ≠ [] := by
      intro hnil
      subst hnil
      rw [show parseLength cfg [] = .incomplete by
        unfold parseLength findColonIdx
        rw [if_neg (by simp; omega)]] at he
      exact absurd he (by simp)
    unfold btReceive
    rw [if_neg (by simp)]
    rw [piGo_len_empty_err hreq rfl rfl he]

theorem parse_length_contract_witness :
    (0 < btCfgEx.maxReqLenEncoded ∧
      findColonIdx ['1', '2', ':', 'a'] = some 2 ∧
      fromCharsNat (['1', '2', ':', 'a'].take 2) = some 12 ∧
      0 < 12 ∧ 12 ≤ btCfgEx.maxReqLen) ∧
    parseLength btCfgEx ['1', '2', ':', 'a'] = .ok 12 3 :=
  ⟨⟨by decide, by decide, by decide, by decide, by decide⟩,
    ((parse_length_contract btCfgEx (by decide) ['1', '2', ':', 'a']).2.2.1 2 12
      (by decide) (by decide)).2 (by decide) (by decide)⟩

/-- C1 (code bug, evaluation at the failing input): with the in-flight list
holding the single request 5 (trivially sorted) and an incoming Response
with `req_id = 3` — an id present in no in-flight entry — `handle_input`
invokes the completion callback of request 5 with the message and removes
that entry, because the `lower_bound` hit is used without checking that its
`req_id` equals the message's.  The claim (and the code's own log message
"Successfully matched response to sent request!") requires that an
unmatched Response be dropped with the in-flight list unchanged. -/
theorem handle_input_matches_wrong_request :
    handleInput [⟨5, 100⟩] ⟨"R", 3⟩ = (some 5, []) ∧
    (¬ ∃ sr ∈ [(⟨5, 100⟩ : SentReq)], sr.reqId = 3) ∧
    handleInput [⟨5, 100⟩] ⟨"R", 5⟩ = (some 5, []) := by
  refine ⟨?_, by decide, ?_⟩ <;> rfl

/-- C2 (code bug, evaluation at the failing input): `check_timeouts` is a
do-while whose body reads `sent_reqs.front()` before any emptiness check,
so on an empty in-flight list it accesses an element of an empty deque
(modelled as `none`); the claim requires a total sweep that never does so.
On nonempty lists the code does pop-and-fail exactly the leading expired
entries and halts at the first non-expired one. -/
theorem check_timeouts_reads_front_of_empty :
    checkTimeouts 0 [] = none ∧
    checkTimeouts 10 [⟨1, 5⟩, ⟨2, 7⟩, ⟨3, 20⟩, ⟨4, 2⟩] =
      some ([⟨3, 20⟩, ⟨4, 2⟩], [1, 2]) := by
  constructor <;> rfl

/-- C9 counterexample: copy-assigning a Response/Error message whose `ep`
view was never assigned (the null view) does not rebase `ep` into the
destination's backing buffer: with the source buffer at address 100 and the
destination buffer at address 200, the rebased `ep` pointer is
`200 + (0 - 100) = 100` — the source buffer's address — which lies outside
the destination buffer, refuting the claim for such messages. -/
theorem message_copy_ep_not_rebased :
    ¬ viewInBuffer (msgAssign msgRE 200) (msgAssign msgRE 200).ep ∧
    (msgAssign msgRE 200).ep.ptr = msgRE.addr := by
  constructor
  · decide
  · rfl

/-- C9 (amended): `message::operator=` (hence copy/move construction and
assignment) rebases every view that refers into the source's backing buffer:
the destination view has the same offset relative to the new buffer, the
same length and the same byte content, and again refers into the
destination's own buffer.  The three stored views are exactly the fixed-up
ones.  A never-assigned `ep` (null view), however, keeps only its zero
length: its pointer becomes `newAddr - m.addr`, which is not in general a
pointer into the destination buffer. -/
theorem message_assign_rebases_inbuffer_views (m : MsgViews) (newAddr : Int) :
    (∀ v : SView, viewInBuffer m v →
      (fixupView newAddr (getSvPos m.addr v)).ptr - newAddr = v.ptr - m.addr ∧
      (fixupView newAddr (getSvPos m.addr v)).len = v.len ∧
      viewInBuffer (msgAssign m newAddr) (fixupView newAddr (getSvPos m.addr v)) ∧
      viewContent (msgAssign m newAddr) (fixupView newAddr (getSvPos m.addr v)) =
        viewContent m v) ∧
    (msgAssign m newAddr).reqType = fixupView newAddr (getSvPos m.addr m.reqType) ∧
    (msgAssign m newAddr).ep = fixupView newAddr (getSvPos m.addr m.ep) ∧
    (msgAssign m newAddr).reqBody = fixupView newAddr (getSvPos m.addr m.reqBody) ∧
    (m.ep = ⟨0, 0⟩ → (msgAssign m newAddr).ep = ⟨newAddr - m.addr, 0⟩) := by
  refine ⟨fun v hv => ⟨by simp [fixupView, getSvPos], by simp [fixupView, getSvPos], ?_, ?_⟩,
    rfl, rfl, rfl, fun h => ?_⟩
  · obtain ⟨h1, h2⟩ := hv
    refine ⟨by simp [fixupView, getSvPos, msgAssign]; omega, ?_⟩
    simp only [fixupView, getSvPos, msgAssign, viewInBuffer]
    omega
  · simp only [viewContent, msgAssign, fixupView, getSvPos]
    have : (newAddr + (v.ptr - m.addr) - newAddr) = v.ptr - m.addr := by ring
    rw [this]
  · simp [msgAssign, fixupView, getSvPos, h]
    ring

theorem message_assign_rebases_inbuffer_views_witness :
    viewInBuffer msgRE msgRE.reqType ∧ msgRE.ep = ⟨0, 0⟩ ∧
    viewInBuffer (msgAssign msgRE 200)
      (fixupView 200 (getSvPos msgRE.addr msgRE.reqType)) ∧
    viewContent (msgAssign msgRE 200)
      (fixupView 200 (getSvPos msgRE.addr msgRE.reqType)) =
      viewContent msgRE msgRE.reqType ∧
    (msgAssign msgRE 200).ep = ⟨100, 0⟩ :=
  ⟨by decide, by decide,
    ((message_assign_rebases_inbuffer_views msgRE 200).1 msgRE.reqType
      (by decide)).2.2.1,
    ((message_assign_rebases_inbuffer_views msgRE 200).1 msgRE.reqType
      (by decide)).2.2.2,
    (message_assign_rebases_inbuffer_views msgRE 200).2.2.2.2 (by decide)⟩

theorem net_id_fresh_before_wrap_witness :
    (1 ≤ 1 ∧ 1 < 2 ∧ 2 ≤ 65535) ∧
    (netIdAfter 1 ≠ netIdAfter 2 ∧ netIdAfter 2 ≠ loopId) :=
  ⟨by decide, net_id_fresh_before_wrap 1 2 (by decide) (by decide) (by decide)⟩

end OxenQuic
